import Mathlib

/-!
# Verification of the comic-repack archive-transcoding pipeline

Shallow embedding of the core functions of the repository
(`src/paths.rs`, `src/main.rs`, `src/cli.rs`) and proofs about them.

Entry names inside containers are Unix-style strings; we model the parts of
Rust's `std::path` semantics that the code uses (component iteration with
its normalization, `file_name`, `extension`, `ends_with`) over plain
strings, working on the underlying character lists so that everything is
kernel-computable.
-/

namespace ComicRepack

/-- Equality on `Except` is decidable componentwise. -/
instance {ε α : Type _} [DecidableEq ε] [DecidableEq α] :
    DecidableEq (Except ε α) := fun a b =>
  match a, b with
  | .error e, .error f => decidable_of_iff (e = f) (by simp)
  | .error _, .ok _ => isFalse (by intro h; cases h)
  | .ok _, .error _ => isFalse (by intro h; cases h)
  | .ok x, .ok y => decidable_of_iff (x = y) (by simp)

/-! ## Byte order on component strings

Within one normal path component, Rust compares the underlying `OsStr`
bytes; UTF-8 byte order coincides with code-point order, so we model it
as the lexicographic order on character lists, written as an executable
comparator.  The component-wise order of whole paths is built on top of
it below, after `pathComponents`. -/

/-- Strict lexicographic order on character lists. -/
def listLtB : List Char → List Char → Bool
  | [], [] => false
  | [], _ :: _ => true
  | _ :: _, [] => false
  | a :: as, b :: bs =>
    if a < b then true
    else if b < a then false
    else listLtB as bs

/-! ## Rust `std::path` semantics over entry-name strings -/

/-- Split a character list on a separator character; the result always has
at least one (possibly empty) group. -/
def splitOnChar (sep : Char) : List Char → List (List Char)
  | [] => [[]]
  | c :: rest =>
    match splitOnChar sep rest with
    | [] => [[]]
    | g :: gs => if c = sep then [] :: g :: gs else (c :: g) :: gs

/-- Rust `Path::components()` / `Path::iter()` for a Unix-style path string:
split on `/`, drop empty components, drop `.` components except a leading
one, and represent `RootDir` by the string `"/"` at the head when the path
is absolute. -/
def pathComponents (s : String) : List String :=
  let parts := ((splitOnChar '/' s.toList).map String.mk).filter
    (fun c => c ≠ "" && c ≠ ".")
  if s.toList.head? = some '/' then "/" :: parts
  else if s = "." || s.toList.take 2 = ['.', '/'] then "." :: parts
  else parts

/-- The first component of a path (`Path::components().next()`). -/
def firstComponent (s : String) : Option String :=
  (pathComponents s).head?

/-- Rust `Path::file_name()`: the last component when it is a normal component. -/
def fileName? (s : String) : Option String :=
  match (pathComponents s).getLast? with
  | some l => if l = "/" || l = "." || l = ".." then none else some l
  | none => none

/-- Rust `Path::extension()` of a single file-name component: `none` when the
name contains no `.`, or begins with its only `.`; otherwise the part after
the last `.`. -/
def extension? (name : String) : Option String :=
  match splitOnChar '.' name.toList with
  | [] => none
  | [_] => none
  | first :: rest =>
    if first = [] && rest.length = 1 then none
    else (rest.getLast?).map String.mk

/-- Rust `Path::file_stem()` of a single file-name component: the part before
the last `.`, or the whole name when there is no extension. -/
def fileStem (name : String) : String :=
  match splitOnChar '.' name.toList with
  | [] => name
  | [_] => name
  | first :: rest =>
    if first = [] && rest.length = 1 then name
    else String.mk (List.intercalate ['.'] ((first :: rest).dropLast))

/-- Rust `Path::extension()` of a whole path: the extension of its file name. -/
def pathExtension? (s : String) : Option String :=
  (fileName? s).bind extension?

/-! ## The order and equality of whole paths

Rust `Path`/`PathBuf` `Ord` and `Eq` are component-wise: `cmp` compares
the `components()` iterators lexicographically, where component kinds
are ordered `RootDir < CurDir < ParentDir < Normal` and two normal
components compare by their bytes; `eq` is equality of the component
lists (so `a//b` equals `a/b`, and `a/b` sorts before `a-b`). -/

/-- The rank of one parsed component in Rust's `Component` ordering
(in this model `"/"` stands for `RootDir`, a leading `"."` for `CurDir`
and `".."` for `ParentDir`; everything else is a normal component). -/
def compRank (c : String) : Nat :=
  if c = "/" then 0 else if c = "." then 1 else if c = ".." then 2 else 3

/-- Strict order on single components: by kind rank, then (for two
normal components) by byte order. -/
def compLtB (a b : String) : Bool :=
  if compRank a < compRank b then true
  else if compRank b < compRank a then false
  else listLtB a.data b.data

/-- Strict lexicographic order on component lists — Rust `Path::cmp`. -/
def pathListLtB : List String → List String → Bool
  | [], [] => false
  | [], _ :: _ => true
  | _ :: _, [] => false
  | a :: as, b :: bs =>
    if compLtB a b then true
    else if compLtB b a then false
    else pathListLtB as bs

/-- Non-strict order on component lists (`u ≤ v` as `¬ v < u`). -/
def compsLeB (u v : List String) : Bool := ! pathListLtB v u

/-- Rust `PathBuf` `≤`: component-wise comparison of the parsed paths. -/
def pathLeB (a b : String) : Bool :=
  compsLeB (pathComponents a) (pathComponents b)

/-! ## `paths.rs`: the noise filter `filter_entries`

The skip condition is translated clause for clause from the source.  Note
that the last clause of the source chains three `.filter` calls over the
same component iterator, so it requires a single component to be equal to
`"__MACOSX"` *and* equal to `".DS_Store"` *and* be a dotfile of length > 1
at the same time; we embed those chained filters literally. -/

/-- The `skip` predicate of `filter_entries` (src/paths.rs lines 91-99). -/
def entrySkip (s : String) : Bool :=
  (s.toList.getLast? = some '/') ||
  ((pathComponents s).getLast? = some "Thumbs.db") ||
  (fileName? s = some ".DS_Store") ||
  ((((pathComponents s).filter (fun item => item = "__MACOSX")).filter
      (fun item => item = ".DS_Store")).filter
      (fun item => item.length > 1 && item.toList.head? = some '.')).head?.isSome

/-- The filter `filter_entries` (src/paths.rs lines 86-106): keep the entries whose
`skip` condition is false. -/
def filter_entries (l : List String) : List String :=
  l.filter (fun e => ¬ entrySkip e)

/-! ## `paths.rs`: the root-directory heuristic `remove_root_entry`

The source is a stateful `filter` closure over two `Option` slots `root`
and `possible`; we embed it as structural recursion threading that state. -/

/-- One pass of the `remove_root_entry` filter closure
(src/paths.rs lines 115-154), threading the `root` and `possible` state. -/
def removeRootGo (root possible : Option String) : List String → List String
  | [] => []
  | e :: rest =>
    match root with
    | some r =>
      if e = r then removeRootGo (some r) possible rest
      else e :: removeRootGo (some r) possible rest
    | none =>
      match (pathComponents e).head? with
      | none =>
        -- empty name: the closure returns false, the entry is dropped
        removeRootGo none possible rest
      | some first =>
        if extension? first = none then
          if possible = some first then
            -- promote `possible` to `root` (and `possible.take()` clears it);
            -- the final check compares the entry against the new root
            if e = first then removeRootGo (some first) none rest
            else e :: removeRootGo (some first) none rest
          else
            -- `first` becomes the new `possible`; root is still `none`
            e :: removeRootGo none (some first) rest
        else
          -- first component has an extension: state unchanged, entry kept
          e :: removeRootGo none possible rest

/-- The heuristic `remove_root_entry` (src/paths.rs lines 115-154). -/
def remove_root_entry (l : List String) : List String :=
  removeRootGo none none l

/-! ## `main.rs`: the entry-level concurrency budget

Lines 62-63 of src/main.rs: `let concurrency = args.jobs_fs;
args.config.jobs /= concurrency;`.  Plain floor division, no clamp. -/

/-- The derived entry-level budget `E` (src/main.rs lines 62-63). -/
def derived_jobs (jobs jobs_fs : Nat) : Nat := jobs / jobs_fs

/-! ## Image formats (`image` crate 0.24, as used by `cli.rs` / `main.rs`) -/

/-- ASCII lowercasing of one character (extension strings are ASCII). -/
def asciiLowerChar (c : Char) : Char :=
  match c with
  | 'A' => 'a' | 'B' => 'b' | 'C' => 'c' | 'D' => 'd' | 'E' => 'e'
  | 'F' => 'f' | 'G' => 'g' | 'H' => 'h' | 'I' => 'i' | 'J' => 'j'
  | 'K' => 'k' | 'L' => 'l' | 'M' => 'm' | 'N' => 'n' | 'O' => 'o'
  | 'P' => 'p' | 'Q' => 'q' | 'R' => 'r' | 'S' => 's' | 'T' => 't'
  | 'U' => 'u' | 'V' => 'v' | 'W' => 'w' | 'X' => 'x' | 'Y' => 'y'
  | 'Z' => 'z' | other => other

/-- ASCII lowercasing of a string. -/
def asciiLower (s : String) : String :=
  String.mk (s.toList.map asciiLowerChar)

/-- The tag `image::ImageFormat` (decoder-side format tag). -/
inductive ImageFormat
  | png | jpeg | gif | webp | pnm | tiff | tga | dds | bmp | ico | hdr
  | openExr | farbfeld | avif | qoi
deriving DecidableEq, Repr

/-- The tag `image::ImageOutputFormat` (encoder-side format tag; JPEG carries its
quality).  The PNM subtype payload is elided (never relevant here). -/
inductive ImageOutputFormat
  | png
  | jpeg (quality : Nat)
  | pnm
  | gif
  | ico
  | bmp
  | farbfeld
  | tga
  | openExr
  | tiff
  | avif
  | qoi
  | webp
  | unsupported (s : String)
deriving DecidableEq, Repr

/-- The table `image::ImageFormat::from_extension` (the crate lowercases first). -/
def ImageFormat.fromExtension (e : String) : Option ImageFormat :=
  match asciiLower e with
  | "avif" => some .avif
  | "jpg" => some .jpeg
  | "jpeg" => some .jpeg
  | "png" => some .png
  | "gif" => some .gif
  | "webp" => some .webp
  | "tif" => some .tiff
  | "tiff" => some .tiff
  | "tga" => some .tga
  | "dds" => some .dds
  | "bmp" => some .bmp
  | "ico" => some .ico
  | "hdr" => some .hdr
  | "exr" => some .openExr
  | "pbm" => some .pnm
  | "pam" => some .pnm
  | "ppm" => some .pnm
  | "pgm" => some .pnm
  | "ff" => some .farbfeld
  | "qoi" => some .qoi
  | _ => none

/-- The map `impl From<ImageFormat> for ImageOutputFormat`: in particular a decoded
JPEG maps to `Jpeg(75)` (the crate's default quality). -/
def ImageOutputFormat.ofImageFormat : ImageFormat → ImageOutputFormat
  | .png => .png
  | .jpeg => .jpeg 75
  | .pnm => .pnm
  | .gif => .gif
  | .ico => .ico
  | .bmp => .bmp
  | .farbfeld => .farbfeld
  | .tga => .tga
  | .openExr => .openExr
  | .tiff => .tiff
  | .avif => .avif
  | .qoi => .qoi
  | .webp => .webp
  | .dds => .unsupported "dds"
  | .hdr => .unsupported "hdr"

/-- The impl `FormatFileExt for ImageOutputFormat` (src/cli.rs lines 114-135). -/
def ImageOutputFormat.fmtExt : ImageOutputFormat → String
  | .avif => "avif"
  | .webp => "webp"
  | .jpeg _ => "jpeg"
  | .png => "png"
  | .pnm => "pnm"
  | .gif => "gif"
  | .ico => "ico"
  | .bmp => "bmp"
  | .tga => "tga"
  | .qoi => "qoi"
  | .tiff => "tiff"
  | .farbfeld => "farbfeld"
  | .openExr => "openexr"
  | .unsupported s => s

/-- The enum `cli::ArchiveType` (src/cli.rs lines 95-102). -/
inductive ArchiveType
  | cbz | zip | cb7 | sevenZip
deriving DecidableEq, Repr

/-- The impl `FormatFileExt for ArchiveType` (src/cli.rs lines 138-147). -/
def ArchiveType.fmtExt : ArchiveType → String
  | .zip => "zip"
  | .cbz => "cbz"
  | .cb7 => "cb7"
  | .sevenZip => "7z"

/-- The flags `cli::Config` (src/cli.rs lines 60-92). -/
structure Config where
  format : ImageOutputFormat
  quality : Nat
  lossless : Bool
  speed : Nat
  jobs : Nat
  archive : ArchiveType
  force : Bool
deriving DecidableEq, Repr

/-! ## `main.rs`: the transform decision policy `transcode`

The external image codec (`image::load_from_memory*` and the encoders) is
out of scope of the pipeline; `transcode` is parameterized over it as a
`Codec` record at that interface boundary, exactly where the source calls
into the `image` crate. -/

/-- The external codec interface used by `transcode`: decoding (with a
known format, or sniffing), and the four encoder call sites. -/
structure Codec (Img : Type) where
  decodeWithFormat : ImageFormat → List Nat → Option Img
  decodeAny : List Nat → Option Img
  encodeAvif : Nat → Nat → Img → Except Unit (List Nat)
  encodeWebpLossless : Img → Except Unit (List Nat)
  encodeWebpLossy : Nat → Img → Except Unit (List Nat)
  encodePng : Img → Except Unit (List Nat)
  encodeOther : ImageOutputFormat → Img → Except Unit (List Nat)

/-- The ways `transcode` can fail: the `expect("filename")` panic, or an
encoder error propagated with `?`. -/
inductive TranscodeError
  | panicMissingFilename
  | encodeError
deriving DecidableEq, Repr

/-- The plain-text / markup extensions of src/main.rs line 334. -/
def isTextExt (e : String) : Bool :=
  match e with
  | "txt" => true | "md" => true | "xml" => true | "html" => true
  | "svg" => true | "info" => true | "json" => true | "yml" => true
  | "yaml" => true | _ => false

/-- Rust `Path::with_extension` for a bare file name (always a non-`..` normal
component here): replace the extension after the stem. -/
def withExtension (nm extn : String) : String :=
  if extn = "" then fileStem nm else fileStem nm ++ "." ++ extn

/-- The adjusted output format of src/main.rs lines 343-346: a JPEG target
gets the configured quality clamped to 0..100. -/
def outFormatAdjusted (cfg : Config) : ImageOutputFormat :=
  match cfg.format with
  | .jpeg _ => .jpeg (min cfg.quality 100)
  | f => f

/-- The detected source format of an entry name (src/main.rs lines
326-329): `from_extension` of the path's extension. -/
def detectedFormat (name : String) : Option ImageFormat :=
  (pathExtension? name).bind ImageFormat.fromExtension

/-- The decode call of src/main.rs lines 359-363: with the detected
format when there is one, sniffing otherwise. -/
def decodeStep {Img : Type} (codec : Codec Img) (fmt : Option ImageFormat)
    (data : List Nat) : Option Img :=
  match fmt with
  | some f => codec.decodeWithFormat f data
  | none => codec.decodeAny data

/-- The encoder dispatch of src/main.rs lines 376-416, keyed on the
configured output format. -/
def encodeStep {Img : Type} (codec : Codec Img) (cfg : Config)
    (image : Img) : Except Unit (List Nat) :=
  match cfg.format with
  | .avif => codec.encodeAvif cfg.speed cfg.quality image
  | .webp =>
    if cfg.lossless then codec.encodeWebpLossless image
    else codec.encodeWebpLossy cfg.quality image
  | .png => codec.encodePng image
  | f => codec.encodeOther f image

/-- The plain-text guard of src/main.rs lines 331-341: the extension is
not a known image extension but is a known text extension. -/
def textGuard (name : String) : Bool :=
  (detectedFormat name).isNone &&
    (match pathExtension? name with
     | some e => isTextExt (asciiLower e)
     | none => false)

/-- The policy `transcode` (src/main.rs lines 322-428). -/
def transcode {Img : Type} (codec : Codec Img) (cfg : Config)
    (data : List Nat) (name : String) :
    Except TranscodeError (String × List Nat) :=
  match fileName? name with
  | none => .error .panicMissingFilename
  | some filename =>
    let format := detectedFormat name
    if textGuard name then
      .ok (name, data)
    else
      let out_format := outFormatAdjusted cfg
      if format.map ImageOutputFormat.ofImageFormat = some out_format then
        .ok (filename, data)
      else if format = some .webp || format = some .avif then
        .ok (filename, data)
      else
        match decodeStep codec format data with
        | some image =>
          match encodeStep codec cfg image with
          | .ok output =>
            .ok (withExtension filename cfg.format.fmtExt, output)
          | .error _ => .error .encodeError
        | none => .ok (name, data)

/-! ## `paths.rs`: output-path mapping over a structured path model

`output_archive_path` and `sanitize_path` manipulate whole filesystem
paths; we model those as an absolute-flag plus a list of components
(Rust's `Normal`, `CurDir`, `ParentDir`; `RootDir` is the flag), i.e.
paths already in the normalized form `Path::components()` yields. -/

/-- One non-root path component. -/
inductive PComp
  | normal (s : String)
  | curDir
  | parentDir
deriving DecidableEq, Repr

/-- A structured path: `absolute` stands for a leading `RootDir`. -/
structure RPath where
  absolute : Bool
  comps : List PComp
deriving DecidableEq, Repr

/-- Rust `Path::file_name()` on the structured model. -/
def RPath.fileNameP (p : RPath) : Option String :=
  match p.comps.getLast? with
  | some (.normal s) => some s
  | _ => none

/-- Rust `Path::parent()` on the structured model: drop the last component;
`none` for a bare root or the empty path. -/
def RPath.parentP (p : RPath) : Option RPath :=
  match p.comps with
  | [] => none
  | _ => some ⟨p.absolute, p.comps.dropLast⟩

/-- Rust `Path::with_extension` on the structured model: rewrite the final
normal component's extension; a path without a file name is unchanged. -/
def RPath.withExtensionP (p : RPath) (e : String) : RPath :=
  match p.comps.getLast? with
  | some (.normal n) =>
    ⟨p.absolute, p.comps.dropLast ++ [.normal (withExtension n e)]⟩
  | _ => p

/-- Rust `Path::join`: an absolute right-hand side replaces the left entirely. -/
def RPath.joinP (a b : RPath) : RPath :=
  if b.absolute then b else ⟨a.absolute, a.comps ++ b.comps⟩

/-- The cleanup `sanitize_path` (src/paths.rs lines 41-49): for an absolute path, skip
the leading `RootDir`; for a relative path, drop every `..` component. -/
def sanitize_path (p : RPath) : RPath :=
  if p.absolute then ⟨false, p.comps⟩
  else ⟨false, p.comps.filter (fun c => c ≠ PComp.parentDir)⟩

/-- The mapping `output_archive_path` (src/paths.rs lines 52-66).  `none` models the
`expect("invalid path")` panic. -/
def output_archive_path (source outdir : RPath) (archive : ArchiveType) :
    Option RPath :=
  let subpath? :=
    if source.absolute then
      (((source.fileNameP).map (fun n => RPath.mk false [.normal n])).or
          source.parentP).map
        (fun base => base.withExtensionP archive.fmtExt)
    else
      some ((sanitize_path source).withExtensionP archive.fmtExt)
  subpath?.map (fun sub => outdir.joinP sub)

/-- Predicate: `out` is lexically inside `outdir`: it extends `outdir` by components
none of which is `..` (being equal to `outdir` is allowed, `rest = []`). -/
def lexInside (outdir out : RPath) : Prop :=
  out.absolute = outdir.absolute ∧
    ∃ rest, out.comps = outdir.comps ++ rest ∧ PComp.parentDir ∉ rest

/-! ## `main.rs`: `ArchiveWriter::open_file` over a filesystem model

The filesystem is a flat map from path strings to file contents
(directories are elided; `create_dir_all` touches no file). -/

/-- Filesystem state: the regular files and their contents. -/
structure FState where
  files : List (String × List Nat)
deriving DecidableEq, Repr

/-- Set or create one file's contents. -/
def setFile : List (String × List Nat) → String → List Nat →
    List (String × List Nat)
  | [], p, d => [(p, d)]
  | (q, c) :: rest, p, d =>
    if q = p then (p, d) :: rest else (q, c) :: setFile rest p d

/-- The error `open_file` raises itself. -/
inductive OpenError
  | alreadyExists
deriving DecidableEq, Repr

/-- The open `ArchiveWriter::open_file` (src/main.rs lines 121-143): check
`try_exists`; refuse with `AlreadyExists` when the target exists and
`force` is unset, touching nothing; otherwise create parent directories
and open with `create_new(!exists)` / `truncate(force)`, after which the
target exists with empty contents (fresh or truncated).  The returned
handle is the path. -/
def open_file (path : String) (force : Bool) (fs : FState) :
    FState × Except OpenError String :=
  let ex := (fs.files.lookup path).isSome
  if ex && !force then
    (fs, .error .alreadyExists)
  else
    (⟨setFile fs.files path []⟩, .ok path)

/-! ## `main.rs`: `convert_all` inner stage and writer close

The inner stage maps every filtered entry through read → transcode →
write, turning each entry's failure into a logged per-entry result, and
then closes the writer exactly once (src/main.rs lines 262-273).  The
bounded-concurrency `buffer_unordered` execution is modelled as a fold in
enumeration order; the claim proved about it does not depend on
completion order. -/

/-- The entry type `paths::StringEntry` (src/paths.rs lines 69-75). -/
structure StringEntry where
  index : Nat
  uri : String
deriving DecidableEq, Repr

/-- Entry-level failures of the inner stage (src/main.rs lines 229-259):
a reader error, the `ar_size == 0` empty-read error, a transcode error
(including the spawn join), or a writer `write_all` error. -/
inductive EntryError
  | readError
  | emptyRead
  | transcodeError
  | writeError
deriving DecidableEq, Repr

/-- The read → transcode part of one entry task (src/main.rs lines
229-252), with the shared reader abstracted as `read`. -/
def processEntry {Img : Type} (codec : Codec Img) (cfg : Config)
    (read : String → Except Unit (List Nat)) (e : StringEntry) :
    Except EntryError (String × List Nat) :=
  match read e.uri with
  | .error _ => .error .readError
  | .ok buffer =>
    if buffer.length = 0 then .error .emptyRead
    else
      match transcode codec cfg buffer e.uri with
      | .error _ => .error .transcodeError
      | .ok nd => .ok nd

/-- Writer state: the appended entries and how many times `close` ran. -/
structure WState where
  writes : List (String × List Nat)
  closeCount : Nat
deriving DecidableEq, Repr

/-- One entry task of the inner stage: process the entry, then append the
outcome to the writer (under the write lock); a failure at any point only
records that entry's error. -/
def convertStep (proc : StringEntry → Except EntryError (String × List Nat))
    (wf : WState → String × List Nat → Except Unit WState)
    (acc : WState × List (Except EntryError String)) (e : StringEntry) :
    WState × List (Except EntryError String) :=
  match proc e with
  | .error err => (acc.1, acc.2 ++ [.error err])
  | .ok nd =>
    match wf acc.1 nd with
    | .error _ => (acc.1, acc.2 ++ [.error .writeError])
    | .ok w2 => (w2, acc.2 ++ [.ok nd.1])

/-- The inner stage `convert_all` (src/main.rs lines 209-274): run every entry task,
collect each task's result (a failed task only contributes an error
result), then close the writer once.  `wf` is the format-specific
`write_all`, which may itself fail. -/
def convert_all (proc : StringEntry → Except EntryError (String × List Nat))
    (wf : WState → String × List Nat → Except Unit WState)
    (entries : List StringEntry) (w : WState) :
    WState × List (Except EntryError String) :=
  let r := entries.foldl (convertStep proc wf) (w, [])
  ({ r.1 with closeCount := r.1.closeCount + 1 }, r.2)

/-! ## `paths.rs`: the Path Resolver `validate_and_unglob`

The filesystem is abstracted at the `try_exists` / `glob` boundary.  A
glob-pattern parse error aborts the whole resolver with an error and
yields no output list at all, so the output-list properties below are
stated for the successful run, with `globF` the per-pattern expansion
(whose per-path errors the source drops with `filter_map`). -/

/-- The loop of `Vec::dedup`: each element is compared (with `PathBuf`
equality, i.e. equal component lists) against the last retained element
`prev` and dropped when equal. -/
def dedupLoop (prev : String) : List String → List String
  | [] => []
  | b :: rest =>
    if pathComponents prev = pathComponents b then dedupLoop prev rest
    else b :: dedupLoop b rest

/-- Rust `Vec::<PathBuf>::dedup`: remove the consecutive `Path`-equal
duplicates, keeping the first element of each run. -/
def dedupAdjacent : List String → List String
  | [] => []
  | a :: rest => a :: dedupLoop a rest

/-- The resolver `validate_and_unglob` (src/paths.rs lines 9-31): existing inputs are
kept, the rest are expanded as glob patterns (an empty expansion only
warns), and the concatenation is sorted and deduplicated.  `sort` is
modelled by `insertionSort` over the component-wise path order — with
a total order every comparison-sort produces the same list. -/
def validate_and_unglob (exists? : String → Bool)
    (globF : String → List String) (paths : List String) : List String :=
  let kept := paths.filter (fun p => exists? p)
  let unexisting := paths.filter (fun p => ¬ exists? p)
  let resolved := unexisting.flatMap globF
  dedupAdjacent
    (List.insertionSort (fun a b => pathLeB a b = true) (kept ++ resolved))

/-! ## Concrete instances used to evaluate the model on sample inputs -/

/-- A concrete codec over the one-point image type: decoding always
succeeds, every encoder returns an empty byte list. -/
def probeCodec : Codec Unit where
  decodeWithFormat := fun _ _ => some ()
  decodeAny := fun _ => some ()
  encodeAvif := fun _ _ _ => .ok []
  encodeWebpLossless := fun _ => .ok []
  encodeWebpLossy := fun _ _ => .ok []
  encodePng := fun _ => .ok []
  encodeOther := fun _ _ => .ok []

/-- The default configuration of the CLI (src/cli.rs): AVIF target,
quality 100, speed 3, no lossless, cbz container. -/
def cfgAvif : Config :=
  { format := .avif, quality := 100, lossless := false, speed := 3,
    jobs := 4, archive := .cbz, force := false }

/-- A JPEG target at the (default) configured quality 100. -/
def cfgJpeg100 : Config :=
  { format := .jpeg 100, quality := 100, lossless := false, speed := 3,
    jobs := 4, archive := .cbz, force := false }

/-! ## Order lemmas for the path comparator -/

theorem listLtB_irrefl : ∀ a : List Char, listLtB a a = false
  | [] => rfl
  | x :: xs => by
    simp [listLtB, lt_irrefl, listLtB_irrefl xs]

theorem listLtB_asymm : ∀ a b : List Char,
    listLtB a b = true → listLtB b a = false
  | [], [] => by simp [listLtB]
  | [], _ :: _ => by simp [listLtB]
  | _ :: _, [] => by simp [listLtB]
  | x :: xs, y :: ys => by
    intro h
    simp only [listLtB] at h ⊢
    by_cases hxy : x < y
    · simp [hxy, lt_asymm hxy]
    · by_cases hyx : y < x
      · simp [hxy, hyx] at h
      · simp only [hxy, hyx, if_false] at h ⊢
        simp [listLtB_asymm xs ys h]

theorem listLtB_trans : ∀ a b c : List Char,
    listLtB a b = true → listLtB b c = true → listLtB a c = true
  | [], b, c => by
    intro h1 h2
    cases c with
    | nil =>
      cases b with
      | nil => simp [listLtB] at h1
      | cons y ys => simp [listLtB] at h2
    | cons z zs => simp [listLtB]
  | x :: xs, b, c => by
    intro h1 h2
    cases b with
    | nil => simp [listLtB] at h1
    | cons y ys =>
      cases c with
      | nil => simp [listLtB] at h2
      | cons z zs =>
        simp only [listLtB] at h1 h2 ⊢
        by_cases hxy : x < y
        · by_cases hyz : y < z
          · simp [lt_trans hxy hyz]
          · by_cases hzy : z < y
            · simp [hyz, hzy] at h2
            · have hyz' : y = z := le_antisymm (not_lt.mp hzy) (not_lt.mp hyz)
              simp [hyz' ▸ hxy]
        · by_cases hyx : y < x
          · simp [hxy, hyx] at h1
          · have hxy' : x = y := le_antisymm (not_lt.mp hyx) (not_lt.mp hxy)
            subst hxy'
            simp only [hxy, if_false, lt_irrefl] at h1
            by_cases hxz : x < z
            · simp [hxz]
            · by_cases hzx : z < x
              · simp [hxz, hzx] at h2
              · simp only [hxz, hzx, if_false] at h2 ⊢
                simp [listLtB_trans xs ys zs h1 h2]

theorem listLtB_eq_of_not : ∀ a b : List Char,
    listLtB a b = false → listLtB b a = false → a = b
  | [], [] => by intros; rfl
  | [], _ :: _ => by intro h _; simp [listLtB] at h
  | _ :: _, [] => by intro _ h; simp [listLtB] at h
  | x :: xs, y :: ys => by
    intro h1 h2
    simp only [listLtB] at h1 h2
    by_cases hxy : x < y
    · simp [hxy] at h1
    · by_cases hyx : y < x
      · simp [hyx] at h2
      · have hx : x = y := le_antisymm (not_lt.mp hyx) (not_lt.mp hxy)
        simp only [hxy, hyx, if_false] at h1 h2
        rw [hx, listLtB_eq_of_not xs ys h1 h2]

/-! ## Order lemmas for single components and component lists -/

theorem compLtB_irrefl (a : String) : compLtB a a = false := by
  simp [compLtB, listLtB_irrefl]

theorem compLtB_asymm (a b : String) (h : compLtB a b = true) :
    compLtB b a = false := by
  simp only [compLtB] at h ⊢
  by_cases h1 : compRank a < compRank b
  · rw [if_neg (by omega), if_pos h1]
  · by_cases h2 : compRank b < compRank a
    · rw [if_neg h1, if_pos h2] at h
      cases h
    · rw [if_neg h1, if_neg h2] at h
      rw [if_neg h2, if_neg h1, listLtB_asymm _ _ h]

theorem compLtB_trans (a b c : String) (h1 : compLtB a b = true)
    (h2 : compLtB b c = true) : compLtB a c = true := by
  simp only [compLtB] at h1 h2 ⊢
  by_cases hab : compRank a < compRank b
  · by_cases hbc : compRank b < compRank c
    · rw [if_pos (by omega)]
    · by_cases hcb : compRank c < compRank b
      · rw [if_neg hbc, if_pos hcb] at h2
        cases h2
      · rw [if_pos (by omega)]
  · by_cases hba : compRank b < compRank a
    · rw [if_neg hab, if_pos hba] at h1
      cases h1
    · by_cases hbc : compRank b < compRank c
      · rw [if_pos (by omega)]
      · by_cases hcb : compRank c < compRank b
        · rw [if_neg hbc, if_pos hcb] at h2
          cases h2
        · rw [if_neg hab, if_neg hba] at h1
          rw [if_neg hbc, if_neg hcb] at h2
          rw [if_neg (by omega), if_neg (by omega),
            listLtB_trans _ _ _ h1 h2]

theorem compLtB_eq_of_not (a b : String) (h1 : compLtB a b = false)
    (h2 : compLtB b a = false) : a = b := by
  simp only [compLtB] at h1 h2
  by_cases hab : compRank a < compRank b
  · rw [if_pos hab] at h1
    cases h1
  · by_cases hba : compRank b < compRank a
    · rw [if_pos hba] at h2
      cases h2
    · rw [if_neg hab, if_neg hba] at h1 h2
      exact String.ext (listLtB_eq_of_not a.data b.data h1 h2)

theorem pathListLtB_irrefl : ∀ u : List String, pathListLtB u u = false
  | [] => rfl
  | x :: xs => by
    simp [pathListLtB, compLtB_irrefl, pathListLtB_irrefl xs]

theorem pathListLtB_asymm : ∀ u v : List String,
    pathListLtB u v = true → pathListLtB v u = false
  | [], [] => by simp [pathListLtB]
  | [], _ :: _ => by simp [pathListLtB]
  | _ :: _, [] => by simp [pathListLtB]
  | x :: xs, y :: ys => by
    intro h
    simp only [pathListLtB] at h ⊢
    by_cases hxy : compLtB x y = true
    · rw [if_neg (by simp [compLtB_asymm x y hxy]), if_pos hxy]
    · by_cases hyx : compLtB y x = true
      · rw [if_neg hxy, if_pos hyx] at h
        cases h
      · rw [if_neg hxy, if_neg hyx] at h
        rw [if_neg hyx, if_neg hxy, pathListLtB_asymm xs ys h]

theorem pathListLtB_trans : ∀ u v w : List String,
    pathListLtB u v = true → pathListLtB v w = true →
      pathListLtB u w = true
  | [], v, w => by
    intro h1 h2
    cases w with
    | nil =>
      cases v with
      | nil => simp [pathListLtB] at h1
      | cons y ys => simp [pathListLtB] at h2
    | cons z zs => simp [pathListLtB]
  | x :: xs, v, w => by
    intro h1 h2
    cases v with
    | nil => simp [pathListLtB] at h1
    | cons y ys =>
      cases w with
      | nil => simp [pathListLtB] at h2
      | cons z zs =>
        simp only [pathListLtB] at h1 h2 ⊢
        by_cases hxy : compLtB x y = true
        · by_cases hyz : compLtB y z = true
          · simp [compLtB_trans x y z hxy hyz]
          · by_cases hzy : compLtB z y = true
            · simp [hyz, hzy] at h2
            · have hyz' : y = z := compLtB_eq_of_not y z
                (by simpa using hyz) (by simpa using hzy)
              simp [hyz' ▸ hxy]
        · by_cases hyx : compLtB y x = true
          · simp [hxy, hyx] at h1
          · have hxy' : x = y := compLtB_eq_of_not x y
              (by simpa using hxy) (by simpa using hyx)
            subst hxy'
            simp only [hxy, if_false, compLtB_irrefl] at h1
            simp only [Bool.false_eq_true, if_false] at h1
            by_cases hxz : compLtB x z = true
            · simp [hxz]
            · by_cases hzx : compLtB z x = true
              · simp [hxz, hzx] at h2
              · simp only [hxz, hzx, if_false] at h2 ⊢
                simp [pathListLtB_trans xs ys zs h1 h2]

theorem pathListLtB_eq_of_not : ∀ u v : List String,
    pathListLtB u v = false → pathListLtB v u = false → u = v
  | [], [] => by intros; rfl
  | [], _ :: _ => by intro h _; simp [pathListLtB] at h
  | _ :: _, [] => by intro _ h; simp [pathListLtB] at h
  | x :: xs, y :: ys => by
    intro h1 h2
    simp only [pathListLtB] at h1 h2
    by_cases hxy : compLtB x y = true
    · simp [hxy] at h1
    · by_cases hyx : compLtB y x = true
      · simp [hyx] at h2
      · have hx : x = y := compLtB_eq_of_not x y
          (by simpa using hxy) (by simpa using hyx)
        simp only [hxy, hyx, if_false] at h1 h2
        rw [hx, pathListLtB_eq_of_not xs ys h1 h2]

theorem compsLeB_refl (u : List String) : compsLeB u u = true := by
  simp [compsLeB, pathListLtB_irrefl]

theorem compsLeB_antisymm {u v : List String} (h1 : compsLeB u v = true)
    (h2 : compsLeB v u = true) : u = v := by
  simp only [compsLeB, Bool.not_eq_true', Bool.not_eq_true] at h1 h2
  exact pathListLtB_eq_of_not u v h2 h1

theorem pathLeB_refl (a : String) : pathLeB a a = true :=
  compsLeB_refl _

instance : IsTotal String (fun a b => pathLeB a b = true) := by
  constructor
  intro a b
  by_cases h : pathListLtB (pathComponents b) (pathComponents a) = true
  · right
    simp [pathLeB, compsLeB, pathListLtB_asymm _ _ h]
  · left
    simp only [pathLeB, compsLeB, Bool.not_eq_true] at h ⊢
    simp [h]

instance : IsTrans String (fun a b => pathLeB a b = true) := by
  constructor
  intro a b c hab hbc
  simp only [pathLeB, compsLeB, Bool.not_eq_true', Bool.not_eq_true]
    at hab hbc ⊢
  by_cases hca : pathListLtB (pathComponents c) (pathComponents a) = true
  · by_cases hK : pathListLtB (pathComponents a) (pathComponents b) =
        true
    · exact absurd (pathListLtB_trans _ _ _ hca hK) (by simp [hbc])
    · have : pathComponents a = pathComponents b :=
        pathListLtB_eq_of_not _ _ (by simpa using hK) hab
      rw [this] at hca
      exact absurd hca (by simp [hbc])
  · simpa using hca

/-! ## Deduplication lemmas -/

theorem dedupLoop_sublist :
    ∀ (p : String) (l : List String), List.Sublist (dedupLoop p l) l
  | _, [] => by simp [dedupLoop]
  | p, b :: rest => by
    rw [dedupLoop]
    split
    · exact (dedupLoop_sublist p rest).trans
        (List.sublist_cons_self b rest)
    · exact (dedupLoop_sublist b rest).cons₂ b

theorem dedupAdjacent_sublist :
    ∀ l : List String, List.Sublist (dedupAdjacent l) l
  | [] => by simp [dedupAdjacent]
  | a :: rest => by
    rw [dedupAdjacent]
    exact (dedupLoop_sublist a rest).cons₂ a

theorem dedupLoop_sorted_strict :
    ∀ (l : List String) (p : String),
      List.Sorted (fun a b => pathLeB a b = true) (p :: l) →
      List.Sorted (fun a b => pathLeB a b = true ∧
        pathComponents a ≠ pathComponents b) (p :: dedupLoop p l)
  | [], p => by simp [dedupLoop]
  | b :: rest, p => by
    intro h
    have hhead := List.rel_of_sorted_cons h
    have htail : List.Sorted (fun a b => pathLeB a b = true)
        (b :: rest) := h.of_cons
    rw [dedupLoop]
    split
    · refine dedupLoop_sorted_strict rest p ?_
      refine List.sorted_cons.mpr ⟨?_, htail.of_cons⟩
      intro x hx
      exact hhead x (List.mem_cons_of_mem b hx)
    · rename_i hne
      have hrec := dedupLoop_sorted_strict rest b htail
      refine List.sorted_cons.mpr ⟨?_, hrec⟩
      intro x hx
      have hxmem : x ∈ b :: rest := by
        rcases List.mem_cons.mp hx with h2 | hx2
        · rw [h2]; exact List.mem_cons_self b rest
        · exact List.mem_cons_of_mem b
            ((dedupLoop_sublist b rest).subset hx2)
      have halex : pathLeB p x = true := hhead x hxmem
      refine ⟨halex, ?_⟩
      intro hax
      have hbx : pathLeB b x = true := by
        rcases List.mem_cons.mp hxmem with h' | h'
        · rw [h']; exact pathLeB_refl b
        · exact List.rel_of_sorted_cons htail x h'
      have hab : pathLeB p b = true := hhead b (List.mem_cons_self b rest)
      have hba : pathLeB b p = true := by
        simp only [pathLeB] at hbx ⊢
        rw [hax]
        exact hbx
      exact hne (compsLeB_antisymm hab hba)

theorem dedupAdjacent_sorted_strict :
    ∀ l : List String, List.Sorted (fun a b => pathLeB a b = true) l →
      List.Sorted (fun a b => pathLeB a b = true ∧
        pathComponents a ≠ pathComponents b) (dedupAdjacent l)
  | [] => by simp [dedupAdjacent]
  | a :: rest => by
    intro h
    rw [dedupAdjacent]
    exact dedupLoop_sorted_strict rest a h

theorem dedupAdjacent_pairwise {l : List String}
    (h : List.Sorted (fun a b => pathLeB a b = true) l) :
    List.Pairwise (fun a b => pathComponents a ≠ pathComponents b)
      (dedupAdjacent l) :=
  (dedupAdjacent_sorted_strict l h).imp (fun hab => hab.2)

theorem dedupAdjacent_nodup {l : List String}
    (h : List.Sorted (fun a b => pathLeB a b = true) l) :
    (dedupAdjacent l).Nodup :=
  (dedupAdjacent_pairwise h).imp (fun hne heq => hne (by rw [heq]))

/-! ## Lemmas about the root-directory heuristic -/

/-- Once `root` is confirmed, the filter simply drops the entries equal to
the root name. -/
theorem removeRootGo_rootSet (r : String) (p : Option String) :
    ∀ l : List String,
      removeRootGo (some r) p l = l.filter (fun e => e ≠ r)
  | [] => rfl
  | e :: rest => by
    by_cases h : e = r
    · simp [removeRootGo, h, removeRootGo_rootSet r p rest]
    · simp [removeRootGo, h, removeRootGo_rootSet r p rest]

/-- Counting is unaffected by filtering out a different name. -/
theorem count_filter_ne (r W : String) (hrW : r ≠ W) (l : List String) :
    (l.filter (fun e => e ≠ r)).count W = l.count W := by
  rw [List.count_filter]
  simp [Ne.symm hrW]

/-- While no candidate is confirmed, an entry named `W` survives the
filter as long as at most one entry (counting the `possible` slot) has
first component `W`. -/
theorem removeRootGo_count (W : String) (hW : (firstComponent W).isSome) :
    ∀ (l : List String) (root possible : Option String),
      root ≠ some W →
      l.countP (fun e => firstComponent e = some W) +
        (if possible = some W then 1 else 0) ≤ 1 →
      (removeRootGo root possible l).count W = l.count W
  | [], _, _ => by intro _ _; rfl
  | e :: rest, root, possible => by
    intro hroot hcnt
    rw [List.countP_cons] at hcnt
    simp only [decide_eq_true_eq] at hcnt
    match root, hroot with
    | some r, hroot2 =>
      have hrW : r ≠ W := fun h => hroot2 (by rw [h])
      rw [removeRootGo_rootSet, count_filter_ne r W hrW]
    | none, _ =>
      cases hfc : (pathComponents e).head? with
      | none =>
        have hfce : firstComponent e = none := by
          simp [firstComponent, hfc]
        have heW : e ≠ W := by
          intro h
          rw [h] at hfce
          simp [hfce] at hW
        rw [if_neg (by simp [hfce])] at hcnt
        simp only [removeRootGo, hfc]
        rw [removeRootGo_count W hW rest none possible (by simp)
          (by omega), List.count_cons]
        simp [heW]
      | some first =>
        have hfce : firstComponent e = some first := by
          simp [firstComponent, hfc]
        simp only [removeRootGo, hfc]
        by_cases hfW : first = W
        · -- this entry itself has first component `W`
          rw [if_pos (by rw [hfce, hfW])] at hcnt
          have hrest0 : rest.countP
              (fun e => firstComponent e = some W) = 0 := by omega
          have hpossW : possible ≠ some W := by
            intro h
            rw [if_pos h] at hcnt
            omega
          by_cases hext : extension? first = none
          · have hposs : possible ≠ some first := by
              rw [hfW]; exact hpossW
            rw [if_pos hext, if_neg hposs]
            rw [List.count_cons, List.count_cons,
              removeRootGo_count W hW rest none (some first) (by simp)
                (by rw [if_pos (by rw [hfW])]; omega)]
          · rw [if_neg hext]
            rw [List.count_cons, List.count_cons,
              removeRootGo_count W hW rest none possible (by simp)
                (by omega)]
        · -- the first component differs from `W`
          rw [if_neg (by rw [hfce]; simp [hfW])] at hcnt
          by_cases hext : extension? first = none
          · by_cases hposs : possible = some first
            · -- promotion: root becomes `first`, and `first ≠ W`
              rw [if_pos hext, if_pos hposs]
              by_cases he : e = first
              · have heW : e ≠ W := by rw [he]; exact hfW
                rw [if_pos he, removeRootGo_rootSet,
                  count_filter_ne first W hfW, List.count_cons]
                simp [heW]
              · rw [if_neg he, List.count_cons, List.count_cons,
                  removeRootGo_rootSet, count_filter_ne first W hfW]
            · rw [if_pos hext, if_neg hposs]
              rw [List.count_cons, List.count_cons,
                removeRootGo_count W hW rest none (some first) (by simp)
                  (by rw [if_neg (by simp [hfW])]; omega)]
          · rw [if_neg hext]
            rw [List.count_cons, List.count_cons,
              removeRootGo_count W hW rest none possible (by simp)
                (by omega)]

/-! ## Every path component is itself a one-component path -/

theorem splitOnChar_ne_nil (sep : Char) :
    ∀ cs : List Char, splitOnChar sep cs ≠ []
  | [] => by simp [splitOnChar]
  | c :: rest => by
    cases h : splitOnChar sep rest with
    | nil => exact absurd h (splitOnChar_ne_nil sep rest)
    | cons g gs =>
      simp only [splitOnChar, h]
      split <;> simp

theorem splitOnChar_sep_not_mem (sep : Char) :
    ∀ (cs : List Char) (g : List Char),
      g ∈ splitOnChar sep cs → sep ∉ g
  | [], g => by
    intro hg
    simp only [splitOnChar, List.mem_singleton] at hg
    simp [hg]
  | c :: rest, g => by
    intro hg
    cases h : splitOnChar sep rest with
    | nil => exact absurd h (splitOnChar_ne_nil sep rest)
    | cons g' gs =>
      simp only [splitOnChar, h] at hg
      by_cases hc : c = sep
      · rw [if_pos hc] at hg
        rcases List.mem_cons.mp hg with rfl | hg2
        · simp
        · exact splitOnChar_sep_not_mem sep rest g (h ▸ hg2)
      · rw [if_neg hc] at hg
        rcases List.mem_cons.mp hg with rfl | hg2
        · intro hmem
          rcases List.mem_cons.mp hmem with rfl | hmem2
          · exact hc rfl
          · exact splitOnChar_sep_not_mem sep rest g'
              (h ▸ List.mem_cons_self g' gs) hmem2
        · exact splitOnChar_sep_not_mem sep rest g
            (h ▸ List.mem_cons_of_mem g' hg2)

theorem splitOnChar_of_not_mem (sep : Char) :
    ∀ cs : List Char, sep ∉ cs → splitOnChar sep cs = [cs]
  | [] => by intro; rfl
  | c :: rest => by
    intro h
    have hc : c ≠ sep := fun e => h (e ▸ List.mem_cons_self c rest)
    have hrest : sep ∉ rest := fun e => h (List.mem_cons_of_mem c e)
    simp only [splitOnChar, splitOnChar_of_not_mem sep rest hrest]
    simp [hc]

/-- A string drawn from the slash-split of some path, nonempty and not
`"."`, is a one-component path: its own first component is itself. -/
theorem parts_firstComponent {s w : String}
    (h : w ∈ ((splitOnChar '/' s.toList).map String.mk).filter
      (fun c => c ≠ "" && c ≠ ".")) :
    firstComponent w = some w := by
  obtain ⟨hmem, hpred⟩ := List.mem_filter.mp h
  obtain ⟨g, hg, rfl⟩ := List.mem_map.mp hmem
  have hslash : '/' ∉ g := splitOnChar_sep_not_mem '/' s.toList g hg
  have hdata : (String.mk g).toList = g := rfl
  simp only [Bool.and_eq_true, decide_eq_true_eq] at hpred
  obtain ⟨hne, hnd⟩ := hpred
  have hgne : g ≠ [] := by
    intro hnil
    exact hne (by rw [hnil])
  simp only [firstComponent, pathComponents, hdata]
  rw [if_neg ?hslash, if_neg ?hdot]
  case hslash =>
    intro hhead
    cases g with
    | nil => simp at hhead
    | cons x xs =>
      simp only [List.head?_cons, Option.some_inj] at hhead
      exact hslash (hhead ▸ List.mem_cons_self x xs)
  case hdot =>
    intro hor
    simp only [Bool.or_eq_true, decide_eq_true_eq] at hor
    rcases hor with hd | htake
    · exact hnd hd
    · have : '/' ∈ g := by
        cases g with
        | nil => simp at htake
        | cons x xs =>
          cases xs with
          | nil => simp at htake
          | cons y ys =>
            simp only [List.take_succ_cons, List.take_zero,
              List.cons.injEq] at htake
            obtain ⟨-, hy, -⟩ := htake
            exact hy ▸ List.mem_cons_of_mem x (List.mem_cons_self y ys)
      exact hslash this
  rw [splitOnChar_of_not_mem '/' g hslash]
  simp [hne, hnd]

/-- Any member of a path's component list is a one-component path. -/
theorem mem_pathComponents_firstComponent {s w : String}
    (h : w ∈ pathComponents s) : (firstComponent w).isSome := by
  simp only [pathComponents] at h
  by_cases h1 : s.toList.head? = some '/'
  · rw [if_pos h1] at h
    rcases List.mem_cons.mp h with rfl | h2
    · decide
    · rw [parts_firstComponent h2]; rfl
  · rw [if_neg h1] at h
    by_cases h2 : (s = "." || s.toList.take 2 = ['.', '/']) = true
    · rw [if_pos h2] at h
      rcases List.mem_cons.mp h with rfl | h3
      · decide
      · rw [parts_firstComponent h3]; rfl
    · rw [if_neg h2] at h
      rw [parts_firstComponent h]; rfl

/-! ## The claims -/

/-- C1: the noise filter is claimed to drop directory markers,
`Thumbs.db`, `.DS_Store`, everything under `__MACOSX`, and hidden
dotfiles.  Evaluating the code on such entries shows the last two
categories are KEPT: the chained component filters of the source can
never all hold at once, so those clauses are dead.  Only the
trailing-slash, `Thumbs.db` and `.DS_Store` clauses act. -/
theorem c1_filter_entries_keeps_macosx_and_dotfiles :
    filter_entries ["x/y.png", "d/", "a/Thumbs.db", "b/.DS_Store",
        "__MACOSX/img.png", "c/.hidden"] =
      ["x/y.png", "__MACOSX/img.png", "c/.hidden"] := by decide

/-- C2: the entry-level budget is claimed to be `jobs / F` floored with a
minimum of 1.  The code (src/main.rs line 63) divides with no clamp:
for `jobs = 10, F = 2` it is 5 as claimed, but for `jobs = 1, F = 2` it
is 0, not at least 1. -/
theorem c2_derived_jobs_no_minimum :
    derived_jobs 10 2 = 5 ∧ derived_jobs 1 2 = 0 ∧
      ¬ 1 ≤ derived_jobs 1 2 := by decide

/-- C4 counterexample: with every first component equal to the
extension-less `"book"` occurring twice, the claim says every entry named
exactly `"book"` is removed; but a `"book"` entry in first position is
kept (the heuristic confirms the root only at the second occurrence, and
the first entry was already emitted). -/
theorem c4_counterexample :
    (["book", "book/a.png"].all
      (fun e => firstComponent e = some "book")) = true ∧
    extension? "book" = none ∧
    remove_root_entry ["book", "book/a.png"] =
      ["book", "book/a.png"] := by decide

/-- C4 (amended): under the claim's hypotheses, `remove_root_entry`
keeps the first entry unconditionally and removes exactly the remaining
entries whose full name equals `R`. -/
theorem c4_root_removed_except_first (R a : String) (rest : List String)
    (hR : extension? R = none) (ha : firstComponent a = some R)
    (hrest : ∀ e ∈ rest, firstComponent e = some R) (hne : rest ≠ []) :
    remove_root_entry (a :: rest) =
      a :: rest.filter (fun e => e ≠ R) := by
  obtain ⟨b, rest', rfl⟩ := List.exists_cons_of_ne_nil hne
  have hb : firstComponent b = some R :=
    hrest b (List.mem_cons_self b rest')
  simp only [firstComponent] at ha hb
  simp only [remove_root_entry, removeRootGo, ha, hb, hR, if_pos rfl,
    reduceCtorEq, if_false, List.filter_cons]
  by_cases hbR : b = R
  · simp [hbR, removeRootGo_rootSet]
  · simp [hbR, removeRootGo_rootSet]

/-- C4 witness: a concrete run of the amended statement. -/
theorem c4_witness :
    remove_root_entry ["book/a.png", "book", "book/b.png"] =
      "book/a.png" ::
        (["book", "book/b.png"].filter (fun e => e ≠ "book")) :=
  c4_root_removed_except_first "book" "book/a.png" ["book", "book/b.png"]
    (by decide) (by decide) (by decide) (by decide)

/-- C5 counterexample: `"book"` occurs as a first component exactly once,
yet an entry is removed (a different extension-less first component,
`"extras"`, repeats and is confirmed as root), so "removes no entry" is
false as stated. -/
theorem c5_counterexample :
    (["book/a.png", "extras", "extras"].countP
      (fun e => firstComponent e = some "book")) = 1 ∧
    remove_root_entry ["book/a.png", "extras", "extras"] =
      ["book/a.png", "extras"] := by decide

/-- C5 (amended): when a name `W` occurs as a first path component
exactly once, no entry whose full name equals `W` is removed — the
single-occurrence limitation is preserved, the wrapper itself survives. -/
theorem c5_single_wrapper_never_removed (l : List String) (W : String)
    (hcount : l.countP (fun e => firstComponent e = some W) = 1) :
    (remove_root_entry l).count W = l.count W := by
  have hpos : 0 < l.countP (fun e => firstComponent e = some W) := by
    omega
  obtain ⟨e, hel, hfe⟩ := List.countP_pos_iff.mp hpos
  simp only [decide_eq_true_eq] at hfe
  have hfe' : (pathComponents e).head? = some W := hfe
  have hW : (firstComponent W).isSome := by
    cases hpc : pathComponents e with
    | nil => rw [hpc] at hfe'; simp at hfe'
    | cons c cs =>
      rw [hpc] at hfe'
      simp only [List.head?_cons, Option.some_inj] at hfe'
      subst hfe'
      exact mem_pathComponents_firstComponent (s := e)
        (by rw [hpc]; exact List.mem_cons_self c cs)
  exact removeRootGo_count W hW l none none (by simp)
    (by rw [hcount]; simp)

/-- C5 witness: a concrete run of the amended statement. -/
theorem c5_witness :
    (remove_root_entry ["book", "a.png"]).count "book" =
      ["book", "a.png"].count "book" :=
  c5_single_wrapper_never_removed ["book", "a.png"] "book" (by decide)

/-! ## C6: path safety of the output mapping -/

theorem withExtensionP_absolute (p : RPath) (e : String) :
    (p.withExtensionP e).absolute = p.absolute := by
  simp only [RPath.withExtensionP]
  split <;> rfl

theorem withExtensionP_noParent {p : RPath} (e : String)
    (h : PComp.parentDir ∉ p.comps) :
    PComp.parentDir ∉ (p.withExtensionP e).comps := by
  simp only [RPath.withExtensionP]
  split
  · intro hmem
    rcases List.mem_append.mp hmem with h1 | h2
    · exact h ((List.dropLast_sublist _).subset h1)
    · simp at h2
  · exact h

theorem sanitize_path_absolute (p : RPath) :
    (sanitize_path p).absolute = false := by
  simp only [sanitize_path]
  split <;> rfl

/-- C6 counterexample: the absolute source `/..` has no file name, so the
code falls back to `Path::parent()` — an absolute path — and `join`
replaces the output directory entirely: the result is `/`, which is not
lexically inside `/out`. -/
theorem c6_counterexample :
    output_archive_path ⟨true, [.parentDir]⟩ ⟨true, [.normal "out"]⟩
        .cbz = some ⟨true, []⟩ ∧
    ¬ lexInside ⟨true, [.normal "out"]⟩ ⟨true, []⟩ := by
  refine ⟨by decide, ?_⟩
  rintro ⟨-, rest, hcomps, -⟩
  simp at hcomps

/-- C6 (amended): for every relative source path (with or without `..`
components) and every absolute source path that has a file name, the
computed output path is lexically inside the output directory. -/
theorem c6_output_inside (source outdir : RPath) (archive : ArchiveType)
    (h : source.absolute = false ∨ (source.fileNameP).isSome) :
    ∃ out, output_archive_path source outdir archive = some out ∧
      lexInside outdir out := by
  by_cases habs : source.absolute = true
  · have hfn : (source.fileNameP).isSome := by
      rcases h with h | h
      · rw [habs] at h; cases h
      · exact h
    obtain ⟨n, hn⟩ := Option.isSome_iff_exists.mp hfn
    refine ⟨⟨outdir.absolute,
      outdir.comps ++ [.normal (withExtension n archive.fmtExt)]⟩, ?_, ?_⟩
    · simp only [output_archive_path, habs, if_true, hn]
      rfl
    · exact ⟨rfl, [.normal (withExtension n archive.fmtExt)], rfl,
        by simp⟩
  · have habs' : source.absolute = false := by
      simpa using habs
    have hnp : PComp.parentDir ∉ (sanitize_path source).comps := by
      simp only [sanitize_path, habs', Bool.false_eq_true, if_false]
      intro hmem
      have := (List.mem_filter.mp hmem).2
      simp at this
    have hnp2 : PComp.parentDir ∉
        ((sanitize_path source).withExtensionP archive.fmtExt).comps :=
      withExtensionP_noParent archive.fmtExt hnp
    have habs2 : ((sanitize_path source).withExtensionP
        archive.fmtExt).absolute = false := by
      rw [withExtensionP_absolute, sanitize_path_absolute]
    refine ⟨⟨outdir.absolute, outdir.comps ++
      ((sanitize_path source).withExtensionP archive.fmtExt).comps⟩,
      ?_, ?_⟩
    · simp only [output_archive_path, habs', Bool.false_eq_true,
        if_false, Option.map_some', Option.some.injEq, RPath.joinP,
        habs2]
    · exact ⟨rfl,
        ((sanitize_path source).withExtensionP archive.fmtExt).comps,
        rfl, hnp2⟩

/-- C6 witness: a relative source with a `..` component stays inside. -/
theorem c6_witness :
    ∃ out, output_archive_path
        ⟨false, [.parentDir, .normal "a.cbr"]⟩
        ⟨false, [.normal "out"]⟩ .cbz = some out ∧
      lexInside ⟨false, [.normal "out"]⟩ out :=
  c6_output_inside ⟨false, [.parentDir, .normal "a.cbr"]⟩
    ⟨false, [.normal "out"]⟩ .cbz (Or.inl rfl)

/-! ## C7: exclusive open of the output file -/

/-- C7: opening the archive writer's output file fails with
`AlreadyExists` exactly when the target exists and `force` is unset, and
in that case the filesystem is left untouched. -/
theorem c7_open_file_excl (path : String) (force : Bool) (fs : FState) :
    ((open_file path force fs).2 = .error .alreadyExists ↔
      (fs.files.lookup path).isSome ∧ force = false) ∧
    ((fs.files.lookup path).isSome → force = false →
      (open_file path force fs).1 = fs) := by
  constructor
  · constructor
    · intro h
      simp only [open_file] at h
      by_cases hex : (fs.files.lookup path).isSome &&
          !force
      · simp only [Bool.and_eq_true, Bool.not_eq_true'] at hex
        exact ⟨hex.1, hex.2⟩
      · rw [if_neg (by simpa using hex)] at h
        cases h
    · rintro ⟨hex, hforce⟩
      simp [open_file, hex, hforce]
  · intro hex hforce
    simp [open_file, hex, hforce]

/-- C7 witness: an existing file, no `--force`: the open errors and the
file keeps its contents. -/
theorem c7_witness :
    ((open_file "out/a.cbz" false ⟨[("out/a.cbz", [1, 2])]⟩).2 =
      .error .alreadyExists) ∧
    (open_file "out/a.cbz" false ⟨[("out/a.cbz", [1, 2])]⟩).1 =
      ⟨[("out/a.cbz", [1, 2])]⟩ :=
  ⟨(c7_open_file_excl "out/a.cbz" false ⟨[("out/a.cbz", [1, 2])]⟩).1.mpr
      ⟨by decide, rfl⟩,
    (c7_open_file_excl "out/a.cbz" false ⟨[("out/a.cbz", [1, 2])]⟩).2
      (by decide) rfl⟩

/-! ## C3 / C10: the transform decision policy -/

/-- C3 counterexample: a `.jpg` source under a JPEG target at quality
100.  The detected source format and the configured target format are
both JPEG, yet the code's skip comparison maps the source to `Jpeg(75)`
and the target to `Jpeg(100)`, so the entry is re-encoded: its bytes
change and its extension is renamed `jpg → jpeg`. -/
theorem c3_counterexample :
    detectedFormat "x.jpg" = some .jpeg ∧
    cfgJpeg100.format = .jpeg 100 ∧
    transcode probeCodec cfgJpeg100 [1] "x.jpg" = .ok ("x.jpeg", []) ∧
    pathExtension? "x.jpg" = some "jpg" ∧
    pathExtension? "x.jpeg" = some "jpeg" := by decide

/-- C3 (amended): pass-through holds when the detected format mapped to
an output format equals the adjusted target (for JPEG targets the
quality payload takes part, so a JPEG source passes through only when
the clamped configured quality is the decoder default 75); and any
recognized plain-text extension passes through unchanged with its full
name and no decode attempt. -/
theorem c3_pass_through {Img : Type} (codec : Codec Img) (cfg : Config)
    (data : List Nat) (name : String) :
    (∀ f fn, detectedFormat name = some f →
      ImageOutputFormat.ofImageFormat f = outFormatAdjusted cfg →
      fileName? name = some fn →
      transcode codec cfg data name = .ok (fn, data) ∧
        extension? fn = pathExtension? name) ∧
    (∀ e, pathExtension? name = some e → detectedFormat name = none →
      isTextExt (asciiLower e) = true →
      transcode codec cfg data name = .ok (name, data)) := by
  constructor
  · intro f fn hdf hofmt hfn
    have htg : textGuard name = false := by
      simp [textGuard, hdf]
    constructor
    · simp [transcode, hfn, htg, hdf, hofmt]
    · simp [pathExtension?, hfn]
  · intro e hpe hdn htext
    obtain ⟨fn, hfn⟩ : ∃ fn, fileName? name = some fn := by
      cases hf : fileName? name with
      | none => simp [pathExtension?, hf] at hpe
      | some fn => exact ⟨fn, rfl⟩
    have htg : textGuard name = true := by
      simp [textGuard, hdn, hpe, htext]
    simp [transcode, hfn, htg]

/-- C3 witness: an AVIF source under the default AVIF target passes
through byte-identically with its extension unchanged. -/
theorem c3_witness :
    transcode probeCodec cfgAvif [7] "d/x.avif" = .ok ("x.avif", [7]) ∧
      extension? "x.avif" = pathExtension? "d/x.avif" :=
  (c3_pass_through probeCodec cfgAvif [7] "d/x.avif").1 .avif "x.avif"
    (by decide) (by decide) (by decide)

/-- C10: the same-format skip, the WebP/AVIF skip and the re-encode
branch all return only the final path component of the entry name
(directories dropped), while the plain-text branch and the undecodable
pass-through return the full original name. -/
theorem c10_name_flattening {Img : Type} (codec : Codec Img)
    (cfg : Config) (data : List Nat) (name fn : String)
    (hfn : fileName? name = some fn) :
    ((detectedFormat name).map ImageOutputFormat.ofImageFormat =
        some (outFormatAdjusted cfg) →
      transcode codec cfg data name = .ok (fn, data)) ∧
    ((detectedFormat name).map ImageOutputFormat.ofImageFormat ≠
        some (outFormatAdjusted cfg) →
      (detectedFormat name = some .webp ∨
        detectedFormat name = some .avif) →
      transcode codec cfg data name = .ok (fn, data)) ∧
    (∀ image output, textGuard name = false →
      (detectedFormat name).map ImageOutputFormat.ofImageFormat ≠
        some (outFormatAdjusted cfg) →
      ¬ (detectedFormat name = some .webp ∨
        detectedFormat name = some .avif) →
      decodeStep codec (detectedFormat name) data = some image →
      encodeStep codec cfg image = .ok output →
      transcode codec cfg data name =
        .ok (withExtension fn cfg.format.fmtExt, output)) ∧
    (textGuard name = true →
      transcode codec cfg data name = .ok (name, data)) ∧
    (textGuard name = false →
      (detectedFormat name).map ImageOutputFormat.ofImageFormat ≠
        some (outFormatAdjusted cfg) →
      ¬ (detectedFormat name = some .webp ∨
        detectedFormat name = some .avif) →
      decodeStep codec (detectedFormat name) data = none →
      transcode codec cfg data name = .ok (name, data)) := by
  refine ⟨?_, ?_, ?_, ?_, ?_⟩
  · intro hsame
    cases hdf : detectedFormat name with
    | none => rw [hdf] at hsame; cases hsame
    | some f =>
      rw [hdf] at hsame
      have htg : textGuard name = false := by
        simp [textGuard, hdf]
      simp only [Option.map_some', Option.some_inj] at hsame
      simp [transcode, hfn, htg, hdf, hsame]
  · intro hne hwa
    have hdfs : (detectedFormat name).isSome := by
      rcases hwa with h | h <;> simp [h]
    have htg : textGuard name = false := by
      simp [textGuard, Option.isNone_iff_eq_none]
      intro hn
      rw [hn] at hdfs
      cases hdfs
    simp only [transcode, hfn, htg, Bool.false_eq_true, if_false]
    rw [if_neg hne, if_pos (by simpa using hwa)]
  · intro image output htg hne hnwa hdec henc
    simp only [transcode, hfn, htg, Bool.false_eq_true, if_false]
    rw [if_neg hne, if_neg (by simpa using hnwa), hdec]
    simp [henc]
  · intro htg
    simp [transcode, hfn, htg]
  · intro htg hne hnwa hdec
    simp only [transcode, hfn, htg, Bool.false_eq_true, if_false]
    rw [if_neg hne, if_neg (by simpa using hnwa), hdec]

/-- C10 witness: a WebP source under an AVIF target is skipped with a
flattened name. -/
theorem c10_witness :
    transcode probeCodec cfgAvif [7] "d/x.webp" = .ok ("x.webp", [7]) :=
  (c10_name_flattening probeCodec cfgAvif [7] "d/x.webp" "x.webp"
    (by decide)).2.1 (by decide) (by decide)

/-! ## C8: failure isolation and single close -/

theorem convert_all_foldl
    (proc : StringEntry → Except EntryError (String × List Nat))
    (wf : WState → String × List Nat → Except Unit WState)
    (hwf : ∀ w1 nd w2, wf w1 nd = .ok w2 →
      w2.closeCount = w1.closeCount) :
    ∀ (entries : List StringEntry)
      (acc : WState × List (Except EntryError String)),
      (entries.foldl (convertStep proc wf) acc).1.closeCount =
          acc.1.closeCount ∧
        (entries.foldl (convertStep proc wf) acc).2.length =
          acc.2.length + entries.length
  | [], acc => by simp
  | e :: rest, acc => by
    simp only [List.foldl_cons]
    have hstep : (convertStep proc wf acc e).1.closeCount =
        acc.1.closeCount ∧
        (convertStep proc wf acc e).2.length = acc.2.length + 1 := by
      simp only [convertStep]
      cases hp : proc e with
      | error err => simp
      | ok nd =>
        cases hw : wf acc.1 nd with
        | error u => simp [hw]
        | ok w2 => simp [hw, hwf acc.1 nd w2 hw]
    obtain ⟨h1, h2⟩ :=
      convert_all_foldl proc wf hwf rest (convertStep proc wf acc e)
    refine ⟨by rw [h1, hstep.1], ?_⟩
    rw [h2, hstep.2]
    simp only [List.length_cons]
    omega

/-- C8: within one file job, every entry is processed and yields exactly
one result (a failed read, transcode or write only contributes that
entry's error), and the job's writer is closed exactly once, no matter
how many entries failed.  `wf` is the format-specific `write_all`; the
hypothesis states that writing does not close the writer. -/
theorem c8_failure_isolation {Img : Type} (codec : Codec Img)
    (cfg : Config) (read : String → Except Unit (List Nat))
    (wf : WState → String × List Nat → Except Unit WState)
    (hwf : ∀ w1 nd w2, wf w1 nd = .ok w2 →
      w2.closeCount = w1.closeCount)
    (entries : List StringEntry) (w : WState) :
    (convert_all (processEntry codec cfg read) wf entries w).2.length =
      entries.length ∧
    (convert_all (processEntry codec cfg read) wf entries
        w).1.closeCount = w.closeCount + 1 := by
  obtain ⟨h1, h2⟩ := convert_all_foldl (processEntry codec cfg read) wf
    hwf entries (w, [])
  constructor
  · simp only [convert_all]
    rw [h2]
    simp
  · simp only [convert_all]
    rw [h1]

/-- C8 witness: three entries, the middle one failing (its name has no
file name, so `transcode` panics and the failure is caught as that
entry's result); all three results are collected and the writer's close
count goes from 0 to 1. -/
theorem c8_witness :
    (convert_all (processEntry probeCodec cfgAvif (fun _ => .ok [5]))
        (fun w nd => .ok { w with writes := w.writes ++ [nd] })
        [⟨0, "a.png"⟩, ⟨1, ""⟩, ⟨2, "b.png"⟩] ⟨[], 0⟩).2.length = 3 ∧
    (convert_all (processEntry probeCodec cfgAvif (fun _ => .ok [5]))
        (fun w nd => .ok { w with writes := w.writes ++ [nd] })
        [⟨0, "a.png"⟩, ⟨1, ""⟩, ⟨2, "b.png"⟩] ⟨[], 0⟩).1.closeCount =
      0 + 1 :=
  c8_failure_isolation probeCodec cfgAvif (fun _ => .ok [5])
    (fun w nd => .ok { w with writes := w.writes ++ [nd] })
    (by
      intro w1 nd w2 h
      injection h with h2
      rw [← h2])
    [⟨0, "a.png"⟩, ⟨1, ""⟩, ⟨2, "b.png"⟩] ⟨[], 0⟩

/-! ## C9: the Path Resolver's canonical output -/

/-- C9: the resolver's output is sorted in Rust's component-wise
`PathBuf` order, contains each path (as a `Path` value, i.e. up to
component equality, hence also as a string) at most once, and is a
deterministic function of the inputs and the filesystem observations
(`try_exists` answers and glob expansions), so two runs against the same
state agree. -/
theorem c9_resolver_canonical (exists? : String → Bool)
    (globF : String → List String) (paths : List String) :
    List.Sorted (fun a b => pathLeB a b = true)
      (validate_and_unglob exists? globF paths) ∧
    List.Pairwise (fun a b => pathComponents a ≠ pathComponents b)
      (validate_and_unglob exists? globF paths) ∧
    (validate_and_unglob exists? globF paths).Nodup ∧
    (∀ exists2 glob2, (∀ p, exists? p = exists2 p) →
      (∀ q, globF q = glob2 q) →
      validate_and_unglob exists? globF paths =
        validate_and_unglob exists2 glob2 paths) := by
  have hsorted : List.Sorted (fun a b => pathLeB a b = true)
      (List.insertionSort (fun a b => pathLeB a b = true)
        ((paths.filter (fun p => exists? p)) ++
          (paths.filter (fun p => ¬ exists? p)).flatMap globF)) :=
    List.sorted_insertionSort _ _
  refine ⟨?_, ?_, ?_, ?_⟩
  · simp only [validate_and_unglob]
    exact hsorted.sublist (dedupAdjacent_sublist _)
  · simp only [validate_and_unglob]
    exact dedupAdjacent_pairwise hsorted
  · simp only [validate_and_unglob]
    exact dedupAdjacent_nodup hsorted
  · intro exists2 glob2 he hg
    have h1 : exists? = exists2 := funext he
    have h2 : globF = glob2 := funext hg
    subst h1
    subst h2
    rfl

/-- C9 witness: a concrete resolver run is sorted, free of duplicate
paths, and equal to a second run over the same filesystem
observations. -/
theorem c9_witness :
    List.Sorted (fun a b => pathLeB a b = true)
      (validate_and_unglob (fun p => p = "b.cbz")
        (fun _ => ["c.cbz", "a.cbz"]) ["b.cbz", "*.cbz", "b.cbz"]) ∧
    List.Pairwise (fun a b => pathComponents a ≠ pathComponents b)
      (validate_and_unglob (fun p => p = "b.cbz")
        (fun _ => ["c.cbz", "a.cbz"]) ["b.cbz", "*.cbz", "b.cbz"]) ∧
    (validate_and_unglob (fun p => p = "b.cbz")
      (fun _ => ["c.cbz", "a.cbz"]) ["b.cbz", "*.cbz", "b.cbz"]).Nodup ∧
    validate_and_unglob (fun p => p = "b.cbz")
        (fun _ => ["c.cbz", "a.cbz"]) ["b.cbz", "*.cbz", "b.cbz"] =
      validate_and_unglob (fun p => p = "b.cbz")
        (fun _ => ["c.cbz", "a.cbz"]) ["b.cbz", "*.cbz", "b.cbz"] :=
  ⟨(c9_resolver_canonical (fun p => p = "b.cbz")
      (fun _ => ["c.cbz", "a.cbz"]) ["b.cbz", "*.cbz", "b.cbz"]).1,
    (c9_resolver_canonical (fun p => p = "b.cbz")
      (fun _ => ["c.cbz", "a.cbz"]) ["b.cbz", "*.cbz", "b.cbz"]).2.1,
    (c9_resolver_canonical (fun p => p = "b.cbz")
      (fun _ => ["c.cbz", "a.cbz"]) ["b.cbz", "*.cbz", "b.cbz"]).2.2.1,
    (c9_resolver_canonical (fun p => p = "b.cbz")
      (fun _ => ["c.cbz", "a.cbz"]) ["b.cbz", "*.cbz", "b.cbz"]).2.2.2
      (fun p => p = "b.cbz") (fun _ => ["c.cbz", "a.cbz"])
      (fun _ => rfl) (fun _ => rfl)⟩

end ComicRepack
